import Mathlib

/-!
Shallow embedding of the ML-from-scratch progress tracker (`app.py`).

The application stores a per-user JSON progress document, a users file and
uploaded implementation files.  Timestamps (ISO-8601 strings produced by
`datetime.now().isoformat()`) are modelled as rational numbers of seconds;
`(b - a).total_seconds() / 3600` becomes `(b - a) / 3600` over ℚ.  Python
dicts are modelled as association lists in insertion order: assignment to an
existing key updates it in place, assignment to a fresh key appends.
-/

namespace MLTracker

/-- Dictionary lookup on an association list (first occurrence wins, as in a
Python dict, where keys are unique anyway). -/
def alookup {β : Type _} (k : String) : List (String × β) → Option β
  | [] => none
  | (k', v) :: rest => if k' = k then some v else alookup k rest

/-- Dictionary assignment `d[k] = v` on an association list: updates the key
in place when present, appends otherwise (Python dict insertion order). -/
def dictInsert {β : Type _} (k : String) (v : β) : List (String × β) → List (String × β)
  | [] => [(k, v)]
  | (k', v') :: rest => if k' = k then (k, v) :: rest else (k', v') :: dictInsert k v rest

/-- A resource link of a catalog entry (`algorithm_list.json`). -/
structure Resource where
  title : String
  url : String
deriving DecidableEq, Repr

/-- A catalog entry: the static metadata of one algorithm. -/
structure AlgoInfo where
  category : String
  description : String
  default_estimated_hours : ℚ
  resources : List Resource
deriving DecidableEq, Repr

/-- The algorithm catalog (`ALGORITHMS` in `app.py`): a mapping from algorithm
name to its metadata. -/
abbrev Catalog := List (String × AlgoInfo)

/-- One user's tracked state for one algorithm, as stored in the per-user
progress document. -/
structure ProgressEntry where
  category : String
  started : Bool
  start_date : Option ℚ
  completed : Bool
  completion_date : Option ℚ
  estimated_hours : ℚ
  actual_hours : ℚ
  implementation_file : Option String
  notes : String
deriving DecidableEq, Repr

/-- A per-user progress document (`data/user_progress/<user>.json`). -/
structure ProgressDoc where
  algorithms : List (String × ProgressEntry)
  last_updated : ℚ
deriving DecidableEq, Repr

/-- One record of the users file (`data/users.json`). -/
structure UserRecord where
  password_hash : String
  name : String
  created_at : ℚ
deriving DecidableEq, Repr

/-- The state of a user's progress file on disk: missing, present but not
parseable as JSON, or a parsed document. -/
inductive FileContent where
  | absent
  | corrupt
  | doc (d : ProgressDoc)
deriving DecidableEq, Repr

/-- The default progress entry built for a catalog algorithm, exactly the
dict literal used in `register_user` and `load_user_progress`. -/
def defaultEntry (info : AlgoInfo) : ProgressEntry :=
  { category := info.category,
    started := false,
    start_date := none,
    completed := false,
    completion_date := none,
    estimated_hours := info.default_estimated_hours,
    actual_hours := 0,
    implementation_file := none,
    notes := "" }

/-- The loop `for algo_name, algo_data in ALGORITHMS.items(): ...` filling an
accumulator dict with default entries. -/
def initAux : Catalog → List (String × ProgressEntry) → List (String × ProgressEntry)
  | [], acc => acc
  | (n, i) :: rest, acc => initAux rest (dictInsert n (defaultEntry i) acc)

/-- The `algorithms` mapping of a freshly initialized progress document. -/
def initAlgorithms (cat : Catalog) : List (String × ProgressEntry) :=
  initAux cat []

/-- A freshly created progress document, as built by `register_user` and by
the creation path of `load_user_progress`. -/
def freshDoc (cat : Catalog) (t : ℚ) : ProgressDoc :=
  { algorithms := initAlgorithms cat, last_updated := t }

/-- The migration loop of `load_user_progress`: for each catalog algorithm not
already present in the document, insert a default entry. -/
def mergeCatalog : Catalog → List (String × ProgressEntry) → List (String × ProgressEntry)
  | [], algs => algs
  | (n, i) :: rest, algs =>
      mergeCatalog rest
        (if (alookup n algs).isSome then algs else dictInsert n (defaultEntry i) algs)

/-- The document returned by `load_user_progress` for an existing parsed file:
the stored document with missing catalog algorithms merged in (in memory only,
the file itself is not rewritten). -/
def loadedDoc (cat : Catalog) (d : ProgressDoc) : ProgressDoc :=
  { algorithms := mergeCatalog cat d.algorithms, last_updated := d.last_updated }

/-- Model of `load_user_progress(username)`.  The result pairs the returned
document with the resulting file state; `none` means the call does not return
within `fuel` recursive calls.  On a missing file it writes and returns a
fresh default document; on a parsed file it returns the merged document while
leaving the file as it was; on a parse failure it calls itself again with the
file (still on disk, still unparsable) unchanged. -/
def load_user_progress : Nat → Catalog → ℚ → FileContent → Option (ProgressDoc × FileContent)
  | 0, _, _, _ => none
  | _ + 1, cat, t, FileContent.absent =>
      some (freshDoc cat t, FileContent.doc (freshDoc cat t))
  | _ + 1, cat, _, FileContent.doc d =>
      some (loadedDoc cat d, FileContent.doc d)
  | k + 1, cat, t, FileContent.corrupt => load_user_progress k cat t FileContent.corrupt

/-- Model of `save_user_progress(username, progress)`: stamps `last_updated`
with the current time and writes the whole document, returning the in-memory
document and the new file state. -/
def save_user_progress (t : ℚ) (d : ProgressDoc) : ProgressDoc × FileContent :=
  ({ d with last_updated := t }, FileContent.doc { d with last_updated := t })

/-- The entry mutation performed by `start_algorithm`: set `started` and stamp
`start_date` with the current time. -/
def startUpd (e : ProgressEntry) (tNow : ℚ) : ProgressEntry :=
  { e with started := true, start_date := some tNow }

/-- The entry mutation performed by `complete_algorithm` before any upload
handling: set `completed`, stamp `completion_date`, and when a start stamp is
present derive `actual_hours` as the elapsed fractional hours (unvalidated,
so a start stamp in the future yields a negative value). -/
def completeUpd (e : ProgressEntry) (tNow : ℚ) : ProgressEntry :=
  let e1 := { e with completed := true, completion_date := some tNow }
  match e.start_date with
  | some s => { e1 with actual_hours := (tNow - s) / 3600 }
  | none => e1

/-- Model of `start_algorithm(username, algo_name)` with explicit times for
the (up to) three `datetime.now()` calls involved: document creation inside
the load, the start stamp, and the save stamp.  `none` means the underlying
load never returns (corrupt file). -/
def start_algorithm (fuel : Nat) (cat : Catalog) (tLoad tNow tSave : ℚ)
    (f : FileContent) (algo : String) : Option (Bool × FileContent) :=
  match load_user_progress fuel cat tLoad f with
  | none => none
  | some (progress, f1) =>
    match alookup algo progress.algorithms with
    | none => some (false, f1)
    | some e =>
      let d := { progress with
                 algorithms := dictInsert algo (startUpd e tNow) progress.algorithms }
      some (true, (save_user_progress tSave d).2)

/-- The on-disk state of the uploads tree: the set of directories that exist
and a mapping path ↦ bytes for the files. -/
structure UploadState where
  dirs : List String
  files : List (String × List Nat)
deriving DecidableEq, Repr

/-- Model of `os.makedirs(d, exist_ok=True)` for the one directory the code
creates (intermediate parents are irrelevant to the checks made here). -/
def insertDir (d : String) (l : List String) : List String :=
  if d ∈ l then l else l ++ [d]

/-- Model of `os.path.join(a, b)` (POSIX, on character lists): an absolute
second component discards the first, otherwise a separator is added unless one
is already there or the first component is empty. -/
def pjoinL (a b : List Char) : List Char :=
  if b.head? = some '/' then b
  else if a = [] ∨ a.getLast? = some '/' then a ++ b
  else a ++ '/' :: b

/-- Model of `os.path.join(a, b)` on strings. -/
def pjoin (a b : String) : String :=
  String.mk (pjoinL a.data b.data)

/-- The characters after the last separator. -/
def basenameL (l : List Char) : List Char :=
  (l.reverse.takeWhile (fun c => c ≠ '/')).reverse

/-- Model of `os.path.basename`. -/
def basename (p : String) : String :=
  String.mk (basenameL p.data)

/-- The characters before the last separator (empty when there is none). -/
def dirnameL (l : List Char) : List Char :=
  ((l.reverse.dropWhile (fun c => c ≠ '/')).drop 1).reverse

/-- Model of `os.path.dirname` (the paths built here never carry duplicate or
trailing separators, where the model and Python agree). -/
def dirname (p : String) : String :=
  String.mk (dirnameL p.data)

/-- Model of `algo_name.replace(' ', '_')`. -/
def replaceSpaces (s : String) : String :=
  String.mk (s.data.map (fun c => if c = ' ' then '_' else c))

/-- The stored filename `f"{algo_name.replace(' ', '_')}.py"`. -/
def uploadFileName (algo : String) : String :=
  replaceSpaces algo ++ ".py"

/-- The possible outcomes of `complete_algorithm`: the load never returns
(corrupt file), the file write raises (its parent directory does not exist,
as happens when the sanitized name still contains a separator), or a normal
return carrying the boolean result and the resulting disk state. -/
inductive CompleteOutcome where
  | diverge
  | raised (f : FileContent) (up : UploadState)
  | done (ok : Bool) (f : FileContent) (up : UploadState)
deriving DecidableEq, Repr

/-- Model of `complete_algorithm(username, algo_name, implementation_file)`.
Sets `completed` and the completion stamp, derives `actual_hours` from the
start stamp when one is present, optionally stores the uploaded bytes and
records the basename of the written path, then saves. -/
def complete_algorithm (fuel : Nat) (cat : Catalog) (tLoad tNow tSave : ℚ)
    (f : FileContent) (up : UploadState) (username algo : String)
    (fileBytes : Option (List Nat)) : CompleteOutcome :=
  match load_user_progress fuel cat tLoad f with
  | none => CompleteOutcome.diverge
  | some (progress, f1) =>
    match alookup algo progress.algorithms with
    | none => CompleteOutcome.done false f1 up
    | some e =>
      let e2 := completeUpd e tNow
      match fileBytes with
      | none =>
        let d := { progress with algorithms := dictInsert algo e2 progress.algorithms }
        CompleteOutcome.done true (save_user_progress tSave d).2 up
      | some bytes =>
        let userDir := pjoin "uploads" username
        let up1 : UploadState := ⟨insertDir userDir up.dirs, up.files⟩
        let path := pjoin userDir (uploadFileName algo)
        if dirname path ∈ up1.dirs then
          let up2 : UploadState := ⟨up1.dirs, dictInsert path bytes up1.files⟩
          let e3 := { e2 with implementation_file := some (basename path) }
          let d := { progress with algorithms := dictInsert algo e3 progress.algorithms }
          CompleteOutcome.done true (save_user_progress tSave d).2 up2
        else CompleteOutcome.raised f1 up1

/-- The outcome of `register_user`: the boolean result together with the users
store, the progress file written (if any) and the upload directory created
(if any). -/
structure RegisterResult where
  ok : Bool
  users : List (String × UserRecord)
  progressFile : Option ProgressDoc
  uploadDir : Option String
deriving DecidableEq, Repr

/-- Model of `register_user(username, password, name)`.  The salted one-way
hash `generate_password_hash` is abstracted as a parameter.  `tUser` is the
`created_at` stamp, `tDoc` the `last_updated` stamp of the fresh document. -/
def register_user (hash : String → String) (cat : Catalog)
    (users : List (String × UserRecord)) (username password name : String)
    (tUser tDoc : ℚ) : RegisterResult :=
  if (alookup username users).isSome then
    ⟨false, users, none, none⟩
  else
    ⟨true,
     dictInsert username ⟨hash password, name, tUser⟩ users,
     some (freshDoc cat tDoc),
     some (pjoin "uploads" username)⟩

/-- The display status derived from a progress entry, with the overrun
magnitude in the delayed case (`algorithm_detail`). -/
inductive Status where
  | notStarted
  | inProgress
  | delayed (overrunHours : ℚ)
  | completed
deriving DecidableEq, Repr

/-- The status derivation of `algorithm_detail`: completed wins; otherwise a
started entry with a start stamp is delayed by `elapsed - estimated` when the
elapsed fractional hours exceed the estimate, else in progress; a started
entry without a stamp is in progress; an unstarted entry is not started. -/
def deriveStatus (e : ProgressEntry) (now : ℚ) : Status :=
  if e.completed then Status.completed
  else if e.started then
    match e.start_date with
    | some s =>
      if e.estimated_hours < (now - s) / 3600 then
        Status.delayed ((now - s) / 3600 - e.estimated_hours)
      else Status.inProgress
    | none => Status.inProgress
  else Status.notStarted

/-- The status text computed independently by the dashboard card rendering. -/
def dashboardStatusText (e : ProgressEntry) (now : ℚ) : String :=
  if e.completed then "Completed"
  else if e.started then
    match e.start_date with
    | some s =>
      if e.estimated_hours < (now - s) / 3600 then "Delayed" else "In Progress"
    | none => "In Progress"
  else "Not Started"

/-- The display label of a status, forgetting the overrun magnitude. -/
def Status.label : Status → String
  | Status.notStarted => "Not Started"
  | Status.inProgress => "In Progress"
  | Status.delayed _ => "Delayed"
  | Status.completed => "Completed"

/-- The first entry of the built-in fallback catalog of `app.py`. -/
def linearRegressionInfo : AlgoInfo :=
  { category := "Beginner",
    description := "Simple linear model for predicting continuous values.",
    default_estimated_hours := 10,
    resources := [{ title := "Linear Regression Tutorial",
                    url := "https://www.youtube.com/watch?v=zPG4NjIkCjc" }] }

/-- The second entry of the built-in fallback catalog of `app.py`. -/
def logisticRegressionInfo : AlgoInfo :=
  { category := "Beginner",
    description := "Binary classification algorithm using sigmoid function.",
    default_estimated_hours := 12,
    resources := [{ title := "Logistic Regression Tutorial",
                    url := "https://www.youtube.com/watch?v=yIYKR4sgzI8" }] }

/-- The built-in fallback catalog `DEFAULT_ALGORITHMS` of `app.py`. -/
def DEFAULT_ALGORITHMS : Catalog :=
  [("Linear Regression", linearRegressionInfo),
   ("Logistic Regression", logisticRegressionInfo)]

/-! ### Association-list lemmas -/

theorem alookup_dictInsert_self {β : Type _} (k : String) (v : β) (l : List (String × β)) :
    alookup k (dictInsert k v l) = some v := by
  induction l with
  | nil => simp [dictInsert, alookup]
  | cons p rest ih =>
    obtain ⟨k', v'⟩ := p
    by_cases h : k' = k
    · simp [dictInsert, h, alookup]
    · simp [dictInsert, h, alookup, ih]

theorem alookup_dictInsert_ne {β : Type _} {k k' : String} (h : k' ≠ k) (v : β)
    (l : List (String × β)) : alookup k (dictInsert k' v l) = alookup k l := by
  induction l with
  | nil => simp [dictInsert, alookup, h]
  | cons p rest ih =>
    obtain ⟨k₀, v₀⟩ := p
    by_cases h0 : k₀ = k'
    · subst h0
      simp [dictInsert, alookup, h]
    · by_cases h1 : k₀ = k <;>
        simp [dictInsert, alookup, h0, h1, ih, Ne.symm h]

theorem dictInsert_of_lookup_none {β : Type _} {k : String} {l : List (String × β)}
    (h : alookup k l = none) (v : β) : dictInsert k v l = l ++ [(k, v)] := by
  induction l with
  | nil => simp [dictInsert]
  | cons p rest ih =>
    obtain ⟨k₀, v₀⟩ := p
    by_cases h0 : k₀ = k
    · simp [alookup, h0] at h
    · simp [alookup, h0] at h
      simp [dictInsert, h0, ih h]

theorem alookup_append_of_some {β : Type _} {k : String} {l : List (String × β)} {v : β}
    (h : alookup k l = some v) (l' : List (String × β)) :
    alookup k (l ++ l') = some v := by
  induction l with
  | nil => simp [alookup] at h
  | cons p rest ih =>
    obtain ⟨k₀, v₀⟩ := p
    by_cases h0 : k₀ = k
    · simp [alookup, h0] at h ⊢
      exact h
    · simp [alookup, h0] at h ⊢
      exact ih h

theorem mem_dictInsert {β : Type _} {x : String × β} {k : String} {v : β}
    {l : List (String × β)} (h : x ∈ dictInsert k v l) : x = (k, v) ∨ x ∈ l := by
  induction l with
  | nil => simpa [dictInsert] using h
  | cons p rest ih =>
    obtain ⟨k₀, v₀⟩ := p
    by_cases h0 : k₀ = k
    · simp [dictInsert, h0] at h
      rcases h with h | h
      · exact Or.inl h
      · exact Or.inr (List.mem_cons_of_mem _ h)
    · simp [dictInsert, h0] at h
      rcases h with h | h
      · exact Or.inr (by simp [h])
      · rcases ih h with h' | h'
        · exact Or.inl h'
        · exact Or.inr (List.mem_cons_of_mem _ h')

theorem mem_of_alookup_eq_some {β : Type _} {k : String} {l : List (String × β)} {v : β}
    (h : alookup k l = some v) : (k, v) ∈ l := by
  induction l with
  | nil => simp [alookup] at h
  | cons p rest ih =>
    obtain ⟨k₀, v₀⟩ := p
    by_cases h0 : k₀ = k
    · simp [alookup, h0] at h
      simp [h0, h]
    · simp [alookup, h0] at h
      exact List.mem_cons_of_mem _ (ih h)

/-! ### Lemmas about the migration merge of `load_user_progress` -/

theorem alookup_mergeCatalog_of_some {cat : Catalog} {algs : List (String × ProgressEntry)}
    {k : String} {v : ProgressEntry} (h : alookup k algs = some v) :
    alookup k (mergeCatalog cat algs) = some v := by
  induction cat generalizing algs with
  | nil => simpa [mergeCatalog] using h
  | cons p rest ih =>
    obtain ⟨n, i⟩ := p
    by_cases hn : (alookup n algs).isSome
    · simpa [mergeCatalog, hn] using ih h
    · have hne : n ≠ k := by
        intro he
        subst he
        rw [h] at hn
        simp at hn
      have : alookup k (dictInsert n (defaultEntry i) algs) = some v := by
        rw [alookup_dictInsert_ne hne, h]
      simpa [mergeCatalog, hn] using ih this

theorem mem_mergeCatalog_of_mem {cat : Catalog} {algs : List (String × ProgressEntry)}
    {x : String × ProgressEntry} (h : x ∈ algs) : x ∈ mergeCatalog cat algs := by
  induction cat generalizing algs with
  | nil => simpa [mergeCatalog] using h
  | cons p rest ih =>
    obtain ⟨n, i⟩ := p
    by_cases hn : (alookup n algs).isSome
    · simpa [mergeCatalog, hn] using ih h
    · have hnone : alookup n algs = none := by
        cases he : alookup n algs
        · rfl
        · rw [he] at hn; simp at hn
      have : x ∈ dictInsert n (defaultEntry i) algs := by
        rw [dictInsert_of_lookup_none hnone]
        exact List.mem_append_left _ h
      simpa [mergeCatalog, hn] using ih this

theorem alookup_mergeCatalog_new {cat : Catalog} {k : String} {i : AlgoInfo}
    {algs : List (String × ProgressEntry)} (hc : alookup k cat = some i)
    (h : alookup k algs = none) :
    alookup k (mergeCatalog cat algs) = some (defaultEntry i) := by
  induction cat generalizing algs with
  | nil => simp [alookup] at hc
  | cons p rest ih =>
    obtain ⟨n, j⟩ := p
    by_cases h0 : n = k
    · subst h0
      simp [alookup] at hc
      subst hc
      rw [mergeCatalog, if_neg (by simp [h] : ¬ (alookup n algs).isSome = true)]
      exact alookup_mergeCatalog_of_some (alookup_dictInsert_self n (defaultEntry j) algs)
    · simp [alookup, h0] at hc
      by_cases hn : (alookup n algs).isSome
      · simpa [mergeCatalog, hn] using ih hc h
      · have : alookup k (dictInsert n (defaultEntry j) algs) = none := by
          rw [alookup_dictInsert_ne h0, h]
        simpa [mergeCatalog, hn] using ih hc this

theorem mem_mergeCatalog_cases {cat : Catalog} {algs : List (String × ProgressEntry)}
    {x : String × ProgressEntry} (h : x ∈ mergeCatalog cat algs) :
    x ∈ algs ∨ ∃ p ∈ cat, x = (p.1, defaultEntry p.2) := by
  induction cat generalizing algs with
  | nil => exact Or.inl (by simpa [mergeCatalog] using h)
  | cons p rest ih =>
    obtain ⟨n, i⟩ := p
    by_cases hn : (alookup n algs).isSome
    · rw [mergeCatalog, if_pos hn] at h
      rcases ih h with h' | ⟨q, hq, he⟩
      · exact Or.inl h'
      · exact Or.inr ⟨q, List.mem_cons_of_mem _ hq, he⟩
    · rw [mergeCatalog, if_neg hn] at h
      rcases ih h with h' | ⟨q, hq, he⟩
      · rcases mem_dictInsert h' with h'' | h''
        · exact Or.inr ⟨(n, i), List.mem_cons_self _ _, h''⟩
        · exact Or.inl h''
      · exact Or.inr ⟨q, List.mem_cons_of_mem _ hq, he⟩

theorem mergeCatalog_id {cat : Catalog} {algs : List (String × ProgressEntry)}
    (h : ∀ p ∈ cat, (alookup p.1 algs).isSome) : mergeCatalog cat algs = algs := by
  induction cat with
  | nil => rfl
  | cons p rest ih =>
    obtain ⟨n, i⟩ := p
    have hn : (alookup n algs).isSome := h (n, i) (List.mem_cons_self _ _)
    rw [mergeCatalog, if_pos hn]
    exact ih (fun q hq => h q (List.mem_cons_of_mem _ hq))

/-! ### Lemmas about fresh-document initialization -/

theorem alookup_initAux_not_mem {cat : Catalog} {k : String}
    (h : k ∉ cat.map Prod.fst) (acc : List (String × ProgressEntry)) :
    alookup k (initAux cat acc) = alookup k acc := by
  induction cat generalizing acc with
  | nil => rfl
  | cons p rest ih =>
    obtain ⟨n, i⟩ := p
    rw [List.map_cons] at h
    have h1 : k ≠ n := fun he => h (he ▸ List.mem_cons_self _ _)
    have h2 : k ∉ rest.map Prod.fst := fun hm => h (List.mem_cons_of_mem _ hm)
    rw [initAux, ih h2, alookup_dictInsert_ne (Ne.symm h1)]

theorem alookup_initAux {cat : Catalog} {k : String} {i : AlgoInfo}
    (hnd : (cat.map Prod.fst).Nodup) (hc : alookup k cat = some i)
    (acc : List (String × ProgressEntry)) :
    alookup k (initAux cat acc) = some (defaultEntry i) := by
  induction cat generalizing acc with
  | nil => simp [alookup] at hc
  | cons p rest ih =>
    obtain ⟨n, j⟩ := p
    rw [List.map_cons] at hnd
    have hnd1 : n ∉ rest.map Prod.fst := (List.nodup_cons.mp hnd).1
    have hnd2 : (rest.map Prod.fst).Nodup := (List.nodup_cons.mp hnd).2
    by_cases h0 : n = k
    · subst h0
      simp [alookup] at hc
      subst hc
      rw [initAux, alookup_initAux_not_mem hnd1]
      exact alookup_dictInsert_self n (defaultEntry j) acc
    · simp [alookup, h0] at hc
      rw [initAux]
      exact ih hnd2 hc _

theorem alookup_initAlgorithms {cat : Catalog} {k : String} {i : AlgoInfo}
    (hnd : (cat.map Prod.fst).Nodup) (hc : alookup k cat = some i) :
    alookup k (initAlgorithms cat) = some (defaultEntry i) :=
  alookup_initAux hnd hc []

theorem mem_initAux_cases {cat : Catalog} {acc : List (String × ProgressEntry)}
    {x : String × ProgressEntry} (h : x ∈ initAux cat acc) :
    x ∈ acc ∨ ∃ p ∈ cat, x = (p.1, defaultEntry p.2) := by
  induction cat generalizing acc with
  | nil => exact Or.inl (by simpa [initAux] using h)
  | cons p rest ih =>
    obtain ⟨n, i⟩ := p
    rw [initAux] at h
    rcases ih h with h' | ⟨q, hq, he⟩
    · rcases mem_dictInsert h' with h'' | h''
      · exact Or.inr ⟨(n, i), List.mem_cons_self _ _, h''⟩
      · exact Or.inl h''
    · exact Or.inr ⟨q, List.mem_cons_of_mem _ hq, he⟩

theorem mem_initAlgorithms_cases {cat : Catalog} {x : String × ProgressEntry}
    (h : x ∈ initAlgorithms cat) : ∃ p ∈ cat, x = (p.1, defaultEntry p.2) := by
  rcases mem_initAux_cases h with h' | h'
  · simp at h'
  · exact h'

/-! ### C1: behaviour of `load_user_progress` on a corrupt file -/

/-- C1: the claim says a corrupt progress file is treated exactly like a
missing one, with `load` terminating and returning a fresh default document.
The code instead re-enters `load_user_progress` with the corrupt file still
on disk, so the existence check sends the recursive call straight back to the
failing parse: for every recursion budget the call has not returned, i.e. the
function never terminates on a corrupt file (in Python, `RecursionError`). -/
theorem load_on_corrupt_file_never_returns (fuel : Nat) (cat : Catalog) (t : ℚ) :
    load_user_progress fuel cat t FileContent.corrupt = none := by
  induction fuel with
  | zero => rfl
  | succ k ih => rw [load_user_progress]; exact ih

/-! ### C2: the status derivation -/

/-- C2: status is a pure function of the entry and the current time:
completed wins regardless of every other field; otherwise a started entry
with a start stamp is Delayed with overrun `elapsed - estimated` exactly when
the elapsed fractional hours exceed the estimate, else In Progress; a started
entry without a stamp is In Progress; an unstarted entry is Not Started.  The
dashboard's independent copy of the derivation agrees with this
classification. -/
theorem status_derivation (e : ProgressEntry) (now : ℚ) :
    (e.completed = true → deriveStatus e now = Status.completed) ∧
    (e.completed = false → e.started = true → ∀ s, e.start_date = some s →
      ((e.estimated_hours < (now - s) / 3600 →
        deriveStatus e now = Status.delayed ((now - s) / 3600 - e.estimated_hours)) ∧
       (¬ e.estimated_hours < (now - s) / 3600 →
        deriveStatus e now = Status.inProgress))) ∧
    (e.completed = false → e.started = true → e.start_date = none →
      deriveStatus e now = Status.inProgress) ∧
    (e.completed = false → e.started = false → deriveStatus e now = Status.notStarted) ∧
    dashboardStatusText e now = (deriveStatus e now).label := by
  refine ⟨?_, ?_, ?_, ?_, ?_⟩
  · intro hc
    simp [deriveStatus, hc]
  · intro hc hs s hsd
    constructor
    · intro hlt
      simp [deriveStatus, hc, hs, hsd, hlt]
    · intro hlt
      simp [deriveStatus, hc, hs, hsd, hlt]
  · intro hc hs hsd
    simp [deriveStatus, hc, hs, hsd]
  · intro hc hs
    simp [deriveStatus, hc, hs]
  · unfold deriveStatus dashboardStatusText
    by_cases hc : e.completed
    · simp [hc, Status.label]
    · by_cases hs : e.started
      · cases hsd : e.start_date with
        | none => simp [hc, hs, hsd, Status.label]
        | some s =>
          by_cases hlt : e.estimated_hours < (now - s) / 3600 <;>
            simp [hc, hs, hsd, hlt, Status.label]
      · simp [hc, hs, Status.label]

/-- A completed entry whose other fields all say "never touched": the claim's
"regardless of all other fields" case. -/
def completedSample : ProgressEntry :=
  { category := "Beginner",
    started := false,
    start_date := none,
    completed := true,
    completion_date := none,
    estimated_hours := 3,
    actual_hours := 0,
    implementation_file := none,
    notes := "" }

/-- Witness for C2 at a concrete entry: completed although never started. -/
theorem status_derivation_witness :
    completedSample.completed = true ∧ deriveStatus completedSample 0 = Status.completed :=
  ⟨rfl, (status_derivation completedSample 0).1 rfl⟩

/-! ### C4: lazy schema migration on load of an existing document -/

/-- C4: loading a pre-existing parsed document returns (without rewriting the
file) the stored document with a default entry for every catalog algorithm
missing from it; every already-present entry is looked up unaltered, every
stored entry is kept (including orphans of algorithms no longer in the
catalog), and the document stamp is untouched. -/
theorem load_existing_doc_migrates (k : Nat) (cat : Catalog) (t : ℚ) (d : ProgressDoc) :
    load_user_progress (k + 1) cat t (FileContent.doc d) =
      some (loadedDoc cat d, FileContent.doc d) ∧
    (∀ n i, alookup n cat = some i → alookup n d.algorithms = none →
      alookup n (loadedDoc cat d).algorithms = some (defaultEntry i)) ∧
    (∀ n e, alookup n d.algorithms = some e →
      alookup n (loadedDoc cat d).algorithms = some e) ∧
    (∀ p ∈ d.algorithms, p ∈ (loadedDoc cat d).algorithms) ∧
    (loadedDoc cat d).last_updated = d.last_updated := by
  refine ⟨rfl, ?_, ?_, ?_, rfl⟩
  · intro n i hc hn
    exact alookup_mergeCatalog_new hc hn
  · intro n e h
    exact alookup_mergeCatalog_of_some h
  · intro p hp
    exact mem_mergeCatalog_of_mem hp

/-- A pre-existing stored entry with user-modified fields, for the C4
witness. -/
def startedLR : ProgressEntry :=
  { category := "Beginner",
    started := true,
    start_date := some 50,
    completed := false,
    completion_date := none,
    estimated_hours := 10,
    actual_hours := 0,
    implementation_file := none,
    notes := "my notes" }

/-- A pre-existing user document that predates the catalog's second
algorithm, for the C4 witness. -/
def oldDoc : ProgressDoc :=
  { algorithms := [("Linear Regression", startedLR)], last_updated := 100 }

/-- Witness for C4: the missing catalog algorithm gains a default entry and
the stored entry is returned unaltered. -/
theorem load_existing_doc_migrates_witness :
    alookup "Logistic Regression" oldDoc.algorithms = none ∧
    alookup "Logistic Regression" (loadedDoc DEFAULT_ALGORITHMS oldDoc).algorithms =
      some (defaultEntry logisticRegressionInfo) ∧
    alookup "Linear Regression" (loadedDoc DEFAULT_ALGORITHMS oldDoc).algorithms =
      some startedLR :=
  ⟨by decide,
   (load_existing_doc_migrates 0 DEFAULT_ALGORITHMS 0 oldDoc).2.1 "Logistic Regression"
     logisticRegressionInfo (by decide) (by decide),
   (load_existing_doc_migrates 0 DEFAULT_ALGORITHMS 0 oldDoc).2.2.1 "Linear Regression"
     startedLR (by decide)⟩

/-! ### C5: creation of a fresh default document -/

/-- C5: loading for a user with no document persists and returns a fresh
document whose entry for each catalog algorithm has exactly the default
fields, with the estimated hours copied from the catalog default; a
successful register writes a progress document of the same default shape. -/
theorem load_absent_creates_defaults (k : Nat) (cat : Catalog) (t : ℚ)
    (hash : String → String) (users : List (String × UserRecord))
    (u pwd nm : String) (tU tD : ℚ)
    (hnd : (cat.map Prod.fst).Nodup) (hu : alookup u users = none) :
    load_user_progress (k + 1) cat t FileContent.absent =
      some (freshDoc cat t, FileContent.doc (freshDoc cat t)) ∧
    (∀ n i, alookup n cat = some i →
      alookup n (freshDoc cat t).algorithms = some
        { category := i.category,
          started := false,
          start_date := none,
          completed := false,
          completion_date := none,
          estimated_hours := i.default_estimated_hours,
          actual_hours := 0,
          implementation_file := none,
          notes := "" }) ∧
    (register_user hash cat users u pwd nm tU tD).progressFile = some (freshDoc cat tD) := by
  refine ⟨rfl, ?_, ?_⟩
  · intro n i hc
    exact alookup_initAlgorithms hnd hc
  · simp [register_user, hu]

/-- Witness for C5 at the built-in catalog: both the load-created and the
register-created documents carry the default entry for Linear Regression. -/
theorem load_absent_creates_defaults_witness :
    alookup "Linear Regression" (freshDoc DEFAULT_ALGORITHMS 0).algorithms =
      some (defaultEntry linearRegressionInfo) ∧
    (register_user (fun s => s) DEFAULT_ALGORITHMS [] "alice" "pw" "Alice" 1 2).progressFile =
      some (freshDoc DEFAULT_ALGORITHMS 2) :=
  ⟨(load_absent_creates_defaults 0 DEFAULT_ALGORITHMS 0 (fun s => s) [] "alice" "pw" "Alice" 1 2
      (by decide) rfl).2.1 "Linear Regression" linearRegressionInfo (by decide),
   (load_absent_creates_defaults 0 DEFAULT_ALGORITHMS 0 (fun s => s) [] "alice" "pw" "Alice" 1 2
      (by decide) rfl).2.2⟩

/-! ### C6: `start_algorithm` -/

/-- C6: `start` on an existing document returns false and persists nothing
when the algorithm is not among the loaded document's entries (the load
itself never yields a missing document, so that disjunct of the claim is
vacuous); on a known algorithm it sets `started`, stamps `start_date` with
the current time, saves, and returns true; a repeated call keeps
`started = true` but resets the start stamp to the later call's time. -/
theorem start_algorithm_spec (k : Nat) (cat : Catalog) (tL tN tS : ℚ)
    (d : ProgressDoc) (a : String) :
    (alookup a (mergeCatalog cat d.algorithms) = none →
      start_algorithm (k + 1) cat tL tN tS (FileContent.doc d) a =
        some (false, FileContent.doc d)) ∧
    (∀ e, alookup a (mergeCatalog cat d.algorithms) = some e →
      start_algorithm (k + 1) cat tL tN tS (FileContent.doc d) a =
        some (true, FileContent.doc
          { algorithms := dictInsert a (startUpd e tN) (mergeCatalog cat d.algorithms),
            last_updated := tS }) ∧
      (startUpd e tN).started = true ∧ (startUpd e tN).start_date = some tN ∧
      (∀ tL' tN' tS' : ℚ,
        start_algorithm (k + 1) cat tL' tN' tS'
            (FileContent.doc
              { algorithms := dictInsert a (startUpd e tN) (mergeCatalog cat d.algorithms),
                last_updated := tS }) a =
          some (true, FileContent.doc
            { algorithms := dictInsert a (startUpd (startUpd e tN) tN')
                (mergeCatalog cat
                  (dictInsert a (startUpd e tN) (mergeCatalog cat d.algorithms))),
              last_updated := tS' }) ∧
        (startUpd (startUpd e tN) tN').started = true ∧
        (startUpd (startUpd e tN) tN').start_date = some tN')) := by
  constructor
  · intro h
    simp [start_algorithm, load_user_progress, loadedDoc, h]
  · intro e h
    refine ⟨?_, rfl, rfl, ?_⟩
    · simp [start_algorithm, load_user_progress, loadedDoc, h, save_user_progress]
    · intro tL' tN' tS'
      have h2 : alookup a
          (mergeCatalog cat (dictInsert a (startUpd e tN) (mergeCatalog cat d.algorithms))) =
          some (startUpd e tN) :=
        alookup_mergeCatalog_of_some (alookup_dictInsert_self _ _ _)
      refine ⟨?_, rfl, rfl⟩
      simp [start_algorithm, load_user_progress, loadedDoc, h2, save_user_progress]

/-- Witness for C6: an unknown algorithm is refused without touching the
file, and a known one gets its flag and stamp set. -/
theorem start_algorithm_spec_witness :
    start_algorithm 1 DEFAULT_ALGORITHMS 0 5 6
        (FileContent.doc (freshDoc DEFAULT_ALGORITHMS 0)) "KMeans" =
      some (false, FileContent.doc (freshDoc DEFAULT_ALGORITHMS 0)) ∧
    (startUpd (defaultEntry linearRegressionInfo) 5).started = true ∧
    (startUpd (defaultEntry linearRegressionInfo) 5).start_date = some 5 :=
  have h := start_algorithm_spec 0 DEFAULT_ALGORITHMS 0 5 6 (freshDoc DEFAULT_ALGORITHMS 0)
    "KMeans"
  have h2 := start_algorithm_spec 0 DEFAULT_ALGORITHMS 0 5 6 (freshDoc DEFAULT_ALGORITHMS 0)
    "Linear Regression"
  have h3 := h2.2 (defaultEntry linearRegressionInfo) (by decide)
  ⟨h.1 (by decide), h3.2.1, h3.2.2.1⟩

/-! ### C7: `complete_algorithm` without an upload -/

/-- C7: `complete` on a known algorithm sets `completed` and stamps the
completion time; whenever a start stamp is present it sets `actual_hours` to
the elapsed fractional hours with no validation (a future start stamp yields
a negative value); and a start immediately followed by a complete (with
non-decreasing clocks) yields a non-negative `actual_hours` equal to the gap
in hours and a completion stamp at or after the start stamp. -/
theorem complete_algorithm_spec (k : Nat) (cat : Catalog) (tL tN tS : ℚ)
    (d : ProgressDoc) (up : UploadState) (u a : String) (e : ProgressEntry)
    (h : alookup a (mergeCatalog cat d.algorithms) = some e) :
    complete_algorithm (k + 1) cat tL tN tS (FileContent.doc d) up u a none =
      CompleteOutcome.done true
        (FileContent.doc
          { algorithms := dictInsert a (completeUpd e tN) (mergeCatalog cat d.algorithms),
            last_updated := tS }) up ∧
    (completeUpd e tN).completed = true ∧
    (completeUpd e tN).completion_date = some tN ∧
    (∀ s, e.start_date = some s →
      (completeUpd e tN).actual_hours = (tN - s) / 3600 ∧
      (tN < s → (completeUpd e tN).actual_hours < 0)) ∧
    (∀ tN1 tS1 tL2 tN2 tS2 : ℚ,
      complete_algorithm (k + 1) cat tL2 tN2 tS2
          (FileContent.doc
            { algorithms := dictInsert a (startUpd e tN1) (mergeCatalog cat d.algorithms),
              last_updated := tS1 }) up u a none =
        CompleteOutcome.done true
          (FileContent.doc
            { algorithms := dictInsert a (completeUpd (startUpd e tN1) tN2)
                (mergeCatalog cat
                  (dictInsert a (startUpd e tN1) (mergeCatalog cat d.algorithms))),
              last_updated := tS2 }) up ∧
      (completeUpd (startUpd e tN1) tN2).actual_hours = (tN2 - tN1) / 3600 ∧
      (completeUpd (startUpd e tN1) tN2).start_date = some tN1 ∧
      (completeUpd (startUpd e tN1) tN2).completion_date = some tN2 ∧
      (tN1 ≤ tN2 → 0 ≤ (completeUpd (startUpd e tN1) tN2).actual_hours)) := by
  refine ⟨?_, ?_, ?_, ?_, ?_⟩
  · simp [complete_algorithm, load_user_progress, loadedDoc, h, save_user_progress]
  · cases hsd : e.start_date <;> simp [completeUpd, hsd]
  · cases hsd : e.start_date <;> simp [completeUpd, hsd]
  · intro s hsd
    refine ⟨by simp [completeUpd, hsd], ?_⟩
    intro hlt
    simp only [completeUpd, hsd]
    exact div_neg_of_neg_of_pos (sub_neg.mpr hlt) (by norm_num)
  · intro tN1 tS1 tL2 tN2 tS2
    have h2 : alookup a
        (mergeCatalog cat (dictInsert a (startUpd e tN1) (mergeCatalog cat d.algorithms))) =
        some (startUpd e tN1) :=
      alookup_mergeCatalog_of_some (alookup_dictInsert_self _ _ _)
    refine ⟨?_, ?_, ?_, ?_, ?_⟩
    · simp [complete_algorithm, load_user_progress, loadedDoc, h2, save_user_progress]
    · simp [completeUpd, startUpd]
    · simp [completeUpd, startUpd]
    · simp [completeUpd, startUpd]
    · intro h12
      have : (completeUpd (startUpd e tN1) tN2).actual_hours = (tN2 - tN1) / 3600 := by
        simp [completeUpd, startUpd]
      rw [this]
      exact div_nonneg (sub_nonneg.mpr h12) (by norm_num)

/-- Witness for C7: completing the pre-existing started entry at time 100
derives the elapsed value from its start stamp 50. -/
theorem complete_algorithm_spec_witness :
    (completeUpd startedLR 100).actual_hours = (100 - 50) / 3600 ∧
    complete_algorithm 1 DEFAULT_ALGORITHMS 0 100 101 (FileContent.doc oldDoc)
        ⟨[], []⟩ "alice" "Linear Regression" none =
      CompleteOutcome.done true
        (FileContent.doc
          { algorithms := dictInsert "Linear Regression" (completeUpd startedLR 100)
              (mergeCatalog DEFAULT_ALGORITHMS oldDoc.algorithms),
            last_updated := 101 }) ⟨[], []⟩ :=
  have h := complete_algorithm_spec 0 DEFAULT_ALGORITHMS 0 100 101 oldDoc ⟨[], []⟩
    "alice" "Linear Regression" startedLR (by decide)
  ⟨(h.2.2.2.1 50 rfl).1, h.1⟩

/-! ### C9: `register_user` -/

/-- C9: registering an already-present username is refused with a false
result and no writes; otherwise the users store gains the hashed password,
display name and creation stamp, a fresh default progress document covering
every catalog algorithm is written, the per-user upload directory is
created, and the call returns true.  The salted one-way hash is abstracted
as the `hash` parameter. -/
theorem register_user_spec (hash : String → String) (cat : Catalog)
    (users : List (String × UserRecord)) (u pwd nm : String) (tU tD : ℚ) :
    (∀ r, alookup u users = some r →
      register_user hash cat users u pwd nm tU tD = ⟨false, users, none, none⟩) ∧
    (alookup u users = none →
      register_user hash cat users u pwd nm tU tD =
        ⟨true, dictInsert u ⟨hash pwd, nm, tU⟩ users,
         some (freshDoc cat tD), some (pjoin "uploads" u)⟩ ∧
      alookup u (dictInsert u ⟨hash pwd, nm, tU⟩ users) = some ⟨hash pwd, nm, tU⟩ ∧
      ((cat.map Prod.fst).Nodup → ∀ n i, alookup n cat = some i →
        alookup n (freshDoc cat tD).algorithms = some (defaultEntry i))) := by
  constructor
  · intro r hr
    simp [register_user, hr]
  · intro hu
    refine ⟨by simp [register_user, hu], alookup_dictInsert_self _ _ _, ?_⟩
    intro hnd n i hc
    exact alookup_initAlgorithms hnd hc

/-- Witness for C9: a duplicate username is refused, a fresh one creates the
stores. -/
theorem register_user_spec_witness :
    register_user (fun s => s) DEFAULT_ALGORITHMS
        [("bob", ⟨"h", "Bob", 0⟩)] "bob" "pw" "B" 1 2 =
      ⟨false, [("bob", ⟨"h", "Bob", 0⟩)], none, none⟩ ∧
    register_user (fun s => s) DEFAULT_ALGORITHMS [] "alice" "pw" "Alice" 1 2 =
      ⟨true, dictInsert "alice" ⟨"pw", "Alice", 1⟩ [],
       some (freshDoc DEFAULT_ALGORITHMS 2), some (pjoin "uploads" "alice")⟩ :=
  ⟨(register_user_spec (fun s => s) DEFAULT_ALGORITHMS [("bob", ⟨"h", "Bob", 0⟩)]
      "bob" "pw" "B" 1 2).1 ⟨"h", "Bob", 0⟩ rfl,
   ((register_user_spec (fun s => s) DEFAULT_ALGORITHMS [] "alice" "pw" "Alice" 1 2).2 rfl).1⟩

/-! ### C10: frame conditions of `start` and file-less `complete` -/

/-- C10: on a document already covering the whole catalog (so the load's
lazy migration adds nothing), `start` changes only the target entry's
`started` flag and start stamp, a file-less `complete` leaves the target
entry's implementation reference, notes, estimate, started flag and start
stamp unchanged, both leave every other algorithm's entry untouched, and
the only document-level change besides the target entry is the
`last_updated` stamp written by the save. -/
theorem start_complete_frame (k : Nat) (cat : Catalog) (tL tN tS : ℚ)
    (d : ProgressDoc) (a : String) (e : ProgressEntry)
    (hall : ∀ p ∈ cat, (alookup p.1 d.algorithms).isSome)
    (he : alookup a d.algorithms = some e) (up : UploadState) (u : String) :
    start_algorithm (k + 1) cat tL tN tS (FileContent.doc d) a =
      some (true, FileContent.doc
        { algorithms := dictInsert a (startUpd e tN) d.algorithms, last_updated := tS }) ∧
    (∀ n, n ≠ a →
      alookup n (dictInsert a (startUpd e tN) d.algorithms) = alookup n d.algorithms) ∧
    (startUpd e tN).completed = e.completed ∧
    (startUpd e tN).completion_date = e.completion_date ∧
    (startUpd e tN).estimated_hours = e.estimated_hours ∧
    (startUpd e tN).actual_hours = e.actual_hours ∧
    (startUpd e tN).implementation_file = e.implementation_file ∧
    (startUpd e tN).notes = e.notes ∧
    (startUpd e tN).category = e.category ∧
    complete_algorithm (k + 1) cat tL tN tS (FileContent.doc d) up u a none =
      CompleteOutcome.done true
        (FileContent.doc
          { algorithms := dictInsert a (completeUpd e tN) d.algorithms,
            last_updated := tS }) up ∧
    (∀ n, n ≠ a →
      alookup n (dictInsert a (completeUpd e tN) d.algorithms) = alookup n d.algorithms) ∧
    (completeUpd e tN).implementation_file = e.implementation_file ∧
    (completeUpd e tN).notes = e.notes ∧
    (completeUpd e tN).estimated_hours = e.estimated_hours ∧
    (completeUpd e tN).started = e.started ∧
    (completeUpd e tN).start_date = e.start_date ∧
    (completeUpd e tN).category = e.category := by
  have hmid : mergeCatalog cat d.algorithms = d.algorithms := mergeCatalog_id hall
  have he' : alookup a (mergeCatalog cat d.algorithms) = some e := by rw [hmid]; exact he
  refine ⟨?_, ?_, rfl, rfl, rfl, rfl, rfl, rfl, rfl, ?_, ?_, ?_, ?_, ?_, ?_, ?_, ?_⟩
  · have h := (start_algorithm_spec k cat tL tN tS d a).2 e he'
    rw [hmid] at h
    exact h.1
  · intro n hn
    exact alookup_dictInsert_ne (Ne.symm hn) _ _
  · have h := (complete_algorithm_spec k cat tL tN tS d up u a e he').1
    rw [hmid] at h
    exact h
  · intro n hn
    exact alookup_dictInsert_ne (Ne.symm hn) _ _
  · cases hsd : e.start_date <;> simp [completeUpd, hsd]
  · cases hsd : e.start_date <;> simp [completeUpd, hsd]
  · cases hsd : e.start_date <;> simp [completeUpd, hsd]
  · cases hsd : e.start_date <;> simp [completeUpd, hsd]
  · cases hsd : e.start_date <;> simp [completeUpd, hsd]
  · cases hsd : e.start_date <;> simp [completeUpd, hsd]

/-- Witness for C10: starting Linear Regression on a complete fresh document
leaves the Logistic Regression entry's lookup unchanged. -/
theorem start_complete_frame_witness :
    start_algorithm 1 DEFAULT_ALGORITHMS 0 5 6
        (FileContent.doc (freshDoc DEFAULT_ALGORITHMS 0)) "Linear Regression" =
      some (true, FileContent.doc
        { algorithms := dictInsert "Linear Regression"
            (startUpd (defaultEntry linearRegressionInfo) 5)
            (freshDoc DEFAULT_ALGORITHMS 0).algorithms,
          last_updated := 6 }) ∧
    alookup "Logistic Regression"
        (dictInsert "Linear Regression" (startUpd (defaultEntry linearRegressionInfo) 5)
          (freshDoc DEFAULT_ALGORITHMS 0).algorithms) =
      alookup "Logistic Regression" (freshDoc DEFAULT_ALGORITHMS 0).algorithms :=
  have h := start_complete_frame 0 DEFAULT_ALGORITHMS 0 5 6 (freshDoc DEFAULT_ALGORITHMS 0)
    "Linear Regression" (defaultEntry linearRegressionInfo) (by decide) (by decide)
    ⟨[], []⟩ "alice"
  ⟨h.1, h.2.1 "Logistic Regression" (by decide)⟩

/-! ### C3: the entry invariant under the core operations -/

/-- The invariant claimed for every entry of every reachable document:
completed implies started, started implies a start stamp is present, and the
completion stamp is at or after the start stamp when both are present. -/
def EntryInvClaim (e : ProgressEntry) : Prop :=
  (e.completed = true → e.started = true) ∧
  (e.started = true → e.start_date.isSome = true) ∧
  (∀ s c, e.start_date = some s → e.completion_date = some c → s ≤ c)

/-- The strengthened inductive invariant, indexed by a bound `t` on every
timestamp written so far. -/
def EntryInvT (t : ℚ) (e : ProgressEntry) : Prop :=
  (e.completed = true → e.started = true) ∧
  (e.started = true → e.start_date.isSome = true) ∧
  (e.completion_date.isSome = true → e.completed = true) ∧
  (∀ s c, e.start_date = some s → e.completion_date = some c → s ≤ c) ∧
  (∀ s, e.start_date = some s → s ≤ t) ∧
  (∀ c, e.completion_date = some c → c ≤ t)

theorem EntryInvT_mono {t t' : ℚ} {e : ProgressEntry} (h : t ≤ t')
    (hi : EntryInvT t e) : EntryInvT t' e := by
  obtain ⟨h1, h2, h3, h4, h5, h6⟩ := hi
  exact ⟨h1, h2, h3, h4, fun s hs => le_trans (h5 s hs) h,
    fun c hc => le_trans (h6 c hc) h⟩

theorem defaultEntry_invT (t : ℚ) (i : AlgoInfo) : EntryInvT t (defaultEntry i) := by
  simp [EntryInvT, defaultEntry]

/-- Inversion of a returning `start_algorithm` call on an existing parsed
document: either the algorithm was unknown and nothing was saved, or the
saved document carries the started entry. -/
theorem start_algorithm_doc_inversion {k : Nat} {cat : Catalog} {tL tN tS : ℚ}
    {d : ProgressDoc} {a : String} {b : Bool} {d' : ProgressDoc}
    (h : start_algorithm k cat tL tN tS (FileContent.doc d) a =
      some (b, FileContent.doc d')) :
    (b = false ∧ d' = d ∧ alookup a (mergeCatalog cat d.algorithms) = none) ∨
    (b = true ∧ ∃ e, alookup a (mergeCatalog cat d.algorithms) = some e ∧
      d' = { algorithms := dictInsert a (startUpd e tN) (mergeCatalog cat d.algorithms),
             last_updated := tS }) := by
  cases k with
  | zero => simp [start_algorithm, load_user_progress] at h
  | succ k =>
    simp only [start_algorithm, load_user_progress] at h
    cases hl : alookup a (loadedDoc cat d).algorithms with
    | none =>
      rw [hl] at h
      simp only [Option.some.injEq, Prod.mk.injEq, FileContent.doc.injEq] at h
      exact Or.inl ⟨h.1.symm, h.2.symm, hl⟩
    | some e =>
      rw [hl] at h
      simp only [save_user_progress, Option.some.injEq, Prod.mk.injEq,
        FileContent.doc.injEq] at h
      exact Or.inr ⟨h.1.symm, e, hl, h.2.symm⟩

/-- Inversion of a returning `complete_algorithm` call on an existing parsed
document: either the algorithm was unknown and nothing was saved, or the
saved document carries the completed entry, possibly with the stored upload
filename recorded. -/
theorem complete_algorithm_doc_inversion {k : Nat} {cat : Catalog} {tL tN tS : ℚ}
    {d : ProgressDoc} {up up' : UploadState} {u a : String} {fb : Option (List Nat)}
    {b : Bool} {d' : ProgressDoc}
    (h : complete_algorithm k cat tL tN tS (FileContent.doc d) up u a fb =
      CompleteOutcome.done b (FileContent.doc d') up') :
    (b = false ∧ d' = d) ∨
    (b = true ∧ ∃ e e3, alookup a (mergeCatalog cat d.algorithms) = some e ∧
      (e3 = completeUpd e tN ∨
        ∃ r, e3 = { completeUpd e tN with implementation_file := some r }) ∧
      d' = { algorithms := dictInsert a e3 (mergeCatalog cat d.algorithms),
             last_updated := tS }) := by
  cases k with
  | zero => simp [complete_algorithm, load_user_progress] at h
  | succ k =>
    simp only [complete_algorithm, load_user_progress] at h
    cases hl : alookup a (loadedDoc cat d).algorithms with
    | none =>
      rw [hl] at h
      simp only [CompleteOutcome.done.injEq, FileContent.doc.injEq] at h
      exact Or.inl ⟨h.1.symm, h.2.1.symm⟩
    | some e =>
      rw [hl] at h
      cases fb with
      | none =>
        simp only [save_user_progress, CompleteOutcome.done.injEq,
          FileContent.doc.injEq] at h
        exact Or.inr ⟨h.1.symm, e, completeUpd e tN, hl, Or.inl rfl, h.2.1.symm⟩
      | some bytes =>
        simp only [save_user_progress] at h
        split at h
        · simp only [CompleteOutcome.done.injEq, FileContent.doc.injEq] at h
          exact Or.inr ⟨h.1.symm, e,
            { completeUpd e tN with
                implementation_file :=
                  some (basename (pjoin (pjoin "uploads" u) (uploadFileName a))) },
            hl, Or.inr ⟨_, rfl⟩, h.2.1.symm⟩
        · simp at h

/-- Documents reachable on disk from a freshly created default document via
arbitrary `start_algorithm`, `complete_algorithm` and `save_user_progress`
calls, with the catalog fixed: the reading of C3 quantifying over the core
operations with no restriction on call order or clocks. -/
inductive ReachableDoc (cat : Catalog) : ProgressDoc → Prop where
  | fresh (t : ℚ) : ReachableDoc cat (freshDoc cat t)
  | step_start {d d' : ProgressDoc} {k : Nat} {tL tN tS : ℚ} {a : String} {b : Bool} :
      ReachableDoc cat d →
      start_algorithm k cat tL tN tS (FileContent.doc d) a =
        some (b, FileContent.doc d') →
      ReachableDoc cat d'
  | step_complete {d d' : ProgressDoc} {k : Nat} {tL tN tS : ℚ} {up up' : UploadState}
      {u a : String} {fb : Option (List Nat)} {b : Bool} :
      ReachableDoc cat d →
      complete_algorithm k cat tL tN tS (FileContent.doc d) up u a fb =
        CompleteOutcome.done b (FileContent.doc d') up' →
      ReachableDoc cat d'
  | step_save {d : ProgressDoc} (tS : ℚ) :
      ReachableDoc cat d →
      ReachableDoc cat (save_user_progress tS d).1

/-- Documents reachable via the core operations as the presentation layer
drives them — `start` only on entries not yet started, `complete` only on
entries started and not completed — with non-decreasing clocks; the index is
an upper bound for every clock used so far. -/
inductive ReachableUI (cat : Catalog) : ProgressDoc → ℚ → Prop where
  | fresh (t : ℚ) : ReachableUI cat (freshDoc cat t) t
  | step_start {d d' : ProgressDoc} {k : Nat} {tL tN tS t : ℚ} {a : String} :
      ReachableUI cat d t →
      (∀ e, alookup a (mergeCatalog cat d.algorithms) = some e → e.started = false) →
      t ≤ tN → tN ≤ tS →
      start_algorithm k cat tL tN tS (FileContent.doc d) a =
        some (true, FileContent.doc d') →
      ReachableUI cat d' tS
  | step_complete {d d' : ProgressDoc} {k : Nat} {tL tN tS t : ℚ} {up up' : UploadState}
      {u a : String} {fb : Option (List Nat)} :
      ReachableUI cat d t →
      (∀ e, alookup a (mergeCatalog cat d.algorithms) = some e →
        e.started = true ∧ e.completed = false) →
      t ≤ tN → tN ≤ tS →
      complete_algorithm k cat tL tN tS (FileContent.doc d) up u a fb =
        CompleteOutcome.done true (FileContent.doc d') up' →
      ReachableUI cat d' tS
  | step_save {d : ProgressDoc} {t tS : ℚ} :
      ReachableUI cat d t → t ≤ tS →
      ReachableUI cat (save_user_progress tS d).1 tS

/-- Every entry of every guarded-reachable document satisfies the
strengthened invariant. -/
theorem reachableUI_invT {cat : Catalog} {d : ProgressDoc} {t : ℚ}
    (h : ReachableUI cat d t) : ∀ p ∈ d.algorithms, EntryInvT t p.2 := by
  induction h with
  | fresh t =>
    intro p hp
    rcases mem_initAlgorithms_cases hp with ⟨q, hq, he⟩
    rw [he]
    exact defaultEntry_invT t q.2
  | @step_start d0 d' k tL tN tS t0 a hR hguard htN htS heq ih =>
    rcases start_algorithm_doc_inversion heq with ⟨hb, _, _⟩ | ⟨_, e, hl, hd'⟩
    · simp at hb
    · subst hd'
      intro p hp
      rcases mem_dictInsert hp with hpe | hpM
      · rw [hpe]
        have hEInv : EntryInvT t0 e := by
          rcases mem_mergeCatalog_cases (mem_of_alookup_eq_some hl) with hd | ⟨q, hq, hqe⟩
          · exact ih _ hd
          · rw [show e = defaultEntry q.2 from congrArg Prod.snd hqe]
            exact defaultEntry_invT _ _
        have hstF : e.started = false := hguard e hl
        have hcompF : e.completed = false := by
          cases hcm : e.completed
          · rfl
          · rw [hEInv.1 hcm] at hstF
            exact absurd hstF (by simp)
        have hcdNone : e.completion_date = none := by
          cases hcd : e.completion_date
          · rfl
          · rw [hEInv.2.2.1 (by simp [hcd])] at hcompF
            exact absurd hcompF (by simp)
        refine ⟨fun _ => rfl, fun _ => rfl, ?_, ?_, ?_, ?_⟩
        · intro hc
          rw [show (startUpd e tN).completion_date = e.completion_date from rfl,
            hcdNone] at hc
          simp at hc
        · intro s c _ hc
          rw [show (startUpd e tN).completion_date = e.completion_date from rfl,
            hcdNone] at hc
          cases hc
        · intro s hs
          rw [show (startUpd e tN).start_date = some tN from rfl] at hs
          cases hs
          exact htS
        · intro c hc
          rw [show (startUpd e tN).completion_date = e.completion_date from rfl,
            hcdNone] at hc
          cases hc
      · rcases mem_mergeCatalog_cases hpM with hpd | ⟨q, hq, hqe⟩
        · exact EntryInvT_mono (le_trans htN htS) (ih p hpd)
        · rw [show p.2 = defaultEntry q.2 from congrArg Prod.snd hqe]
          exact defaultEntry_invT _ _
  | @step_complete d0 d' k tL tN tS t0 up up' u a fb hR hguard htN htS heq ih =>
    rcases complete_algorithm_doc_inversion heq with ⟨hb, _⟩ | ⟨_, e, e3, hl, he3, hd'⟩
    · simp at hb
    · subst hd'
      intro p hp
      rcases mem_dictInsert hp with hpe | hpM
      · rw [hpe]
        have hEInv : EntryInvT t0 e := by
          rcases mem_mergeCatalog_cases (mem_of_alookup_eq_some hl) with hd | ⟨q, hq, hqe⟩
          · exact ih _ hd
          · rw [show e = defaultEntry q.2 from congrArg Prod.snd hqe]
            exact defaultEntry_invT _ _
        have hstT : e.started = true := (hguard e hl).1
        obtain ⟨s, hs⟩ := Option.isSome_iff_exists.mp (hEInv.2.1 hstT)
        have hsle : s ≤ _ := hEInv.2.2.2.2.1 s hs
        have hfields : e3.started = true ∧ e3.start_date = some s ∧
            e3.completed = true ∧ e3.completion_date = some tN := by
          rcases he3 with he3 | ⟨r, he3⟩ <;>
            subst he3 <;> simp [completeUpd, hs, hstT]
        refine ⟨fun _ => hfields.1, fun _ => by simp [hfields.2.1], fun _ => hfields.2.2.1,
          ?_, ?_, ?_⟩
        · intro s' c hs' hc
          rw [hfields.2.1] at hs'
          rw [hfields.2.2.2] at hc
          cases hs'
          cases hc
          exact le_trans hsle htN
        · intro s' hs'
          rw [hfields.2.1] at hs'
          cases hs'
          exact le_trans hsle (le_trans htN htS)
        · intro c hc
          rw [hfields.2.2.2] at hc
          cases hc
          exact htS
      · rcases mem_mergeCatalog_cases hpM with hpd | ⟨q, hq, hqe⟩
        · exact EntryInvT_mono (le_trans htN htS) (ih p hpd)
        · rw [show p.2 = defaultEntry q.2 from congrArg Prod.snd hqe]
          exact defaultEntry_invT _ _
  | @step_save d0 t0 tS hR hle ih =>
    intro p hp
    exact EntryInvT_mono hle (ih p hp)

/-- C3 (amended): every document reachable from a fresh default document via
`start`, `complete` and `save` — where `start` is only applied to entries not
yet started and `complete` only to entries started and not completed, as the
presentation layer enforces, and the clocks of successive calls never go
backwards — satisfies, at every entry: completed implies started, started
implies a start stamp is present, and the completion stamp is at or after
the start stamp when both are present. -/
theorem reachable_guarded_invariant (cat : Catalog) (d : ProgressDoc) (t : ℚ)
    (h : ReachableUI cat d t) : ∀ p ∈ d.algorithms, EntryInvClaim p.2 := by
  intro p hp
  have h6 := reachableUI_invT h p hp
  exact ⟨h6.1, h6.2.1, h6.2.2.2.1⟩

/-- The document saved by completing Linear Regression on a fresh default
document without ever starting it. -/
def violatingDoc : ProgressDoc :=
  { algorithms := dictInsert "Linear Regression"
      (completeUpd (defaultEntry linearRegressionInfo) 5)
      (mergeCatalog DEFAULT_ALGORITHMS (initAlgorithms DEFAULT_ALGORITHMS)),
    last_updated := 6 }

/-- Counterexample to C3 as stated: over unrestricted core-operation
sequences the invariant fails, because `complete_algorithm` never sets
`started` — completing a never-started entry yields `completed = true` with
`started = false`. -/
theorem unguarded_reachable_violates_invariant :
    ¬ ∀ d, ReachableDoc DEFAULT_ALGORITHMS d → ∀ p ∈ d.algorithms, EntryInvClaim p.2 := by
  intro hAll
  have hR : ReachableDoc DEFAULT_ALGORITHMS violatingDoc :=
    ReachableDoc.step_complete (ReachableDoc.fresh 0)
      (by decide : complete_algorithm 1 DEFAULT_ALGORITHMS 4 5 6
        (FileContent.doc (freshDoc DEFAULT_ALGORITHMS 0)) ⟨[], []⟩ "alice"
        "Linear Regression" none =
        CompleteOutcome.done true (FileContent.doc violatingDoc) ⟨[], []⟩)
  have hmem : ("Linear Regression", completeUpd (defaultEntry linearRegressionInfo) 5) ∈
      violatingDoc.algorithms := by decide
  have hst := (hAll violatingDoc hR _ hmem).1 (by decide)
  exact absurd hst (by decide)

/-- Witness for the amended C3 at a concrete guarded-reachable document. -/
theorem reachable_guarded_invariant_witness :
    (("Linear Regression", defaultEntry linearRegressionInfo) ∈
      (freshDoc DEFAULT_ALGORITHMS 0).algorithms) ∧
    ((defaultEntry linearRegressionInfo).completed = true →
      (defaultEntry linearRegressionInfo).started = true) :=
  ⟨by decide,
   (reachable_guarded_invariant DEFAULT_ALGORITHMS (freshDoc DEFAULT_ALGORITHMS 0) 0
      (ReachableUI.fresh 0) ("Linear Regression", defaultEntry linearRegressionInfo)
      (by decide)).1⟩

/-! ### C8: upload path construction and round trip -/

theorem string_data_append (s t : String) : (s ++ t).data = s.data ++ t.data := by
  cases s
  cases t
  rfl

theorem takeWhile_ne_slash_append {l₁ l₂ : List Char} (h : '/' ∉ l₁) :
    (l₁ ++ '/' :: l₂).takeWhile (fun c => c ≠ '/') = l₁ := by
  induction l₁ with
  | nil => simp
  | cons c t ih =>
    have hc : c ≠ '/' := fun he => h (he ▸ List.mem_cons_self _ _)
    have ht : '/' ∉ t := fun hm => h (List.mem_cons_of_mem _ hm)
    rw [List.cons_append, List.takeWhile_cons, if_pos (by simp [hc]), ih ht]

theorem dropWhile_ne_slash_append {l₁ l₂ : List Char} (h : '/' ∉ l₁) :
    (l₁ ++ '/' :: l₂).dropWhile (fun c => c ≠ '/') = '/' :: l₂ := by
  induction l₁ with
  | nil => simp
  | cons c t ih =>
    have hc : c ≠ '/' := fun he => h (he ▸ List.mem_cons_self _ _)
    have ht : '/' ∉ t := fun hm => h (List.mem_cons_of_mem _ hm)
    rw [List.cons_append, List.dropWhile_cons, if_pos (by simp [hc]), ih ht]

theorem basenameL_append {a f : List Char} (hf : '/' ∉ f) :
    basenameL (a ++ '/' :: f) = f := by
  unfold basenameL
  rw [List.reverse_append, List.reverse_cons, List.append_assoc, List.singleton_append,
    takeWhile_ne_slash_append (by simpa using hf), List.reverse_reverse]

theorem dirnameL_append {a f : List Char} (hf : '/' ∉ f) :
    dirnameL (a ++ '/' :: f) = a := by
  unfold dirnameL
  rw [List.reverse_append, List.reverse_cons, List.append_assoc, List.singleton_append,
    dropWhile_ne_slash_append (by simpa using hf), List.drop_one, List.tail_cons,
    List.reverse_reverse]

theorem pjoinL_eq {a b : List Char} (ha : a ≠ []) (hlast : a.getLast? ≠ some '/')
    (hb : '/' ∉ b) : pjoinL a b = a ++ '/' :: b := by
  unfold pjoinL
  have h1 : ¬ b.head? = some '/' := by
    cases b with
    | nil => simp
    | cons c t =>
      simp only [List.head?_cons, Option.some.injEq]
      intro hc
      exact hb (hc ▸ List.mem_cons_self _ _)
  rw [if_neg h1, if_neg (not_or.mpr ⟨ha, hlast⟩)]

/-- The sanitized upload filename of a separator-free algorithm name is
itself nonempty and separator-free. -/
theorem uploadFileName_no_slash {algo : String} (h : '/' ∉ algo.data) :
    '/' ∉ (uploadFileName algo).data ∧ (uploadFileName algo).data ≠ [] := by
  have hd : (uploadFileName algo).data =
      algo.data.map (fun c => if c = ' ' then '_' else c) ++ ['.', 'p', 'y'] := by
    rw [uploadFileName, string_data_append]
    rfl
  constructor
  · intro hm
    rw [hd] at hm
    rcases List.mem_append.mp hm with hm | hm
    · rcases List.mem_map.mp hm with ⟨c, hc, hce⟩
      by_cases hsp : c = ' '
      · rw [if_pos hsp] at hce
        exact absurd hce (by decide)
      · rw [if_neg hsp] at hce
        exact h (hce ▸ hc)
    · simp at hm
  · rw [hd]
    simp

/-- Splitting the upload path `uploads/<user>/<filename>` built by
`complete_algorithm` for a separator-free username and filename. -/
theorem upload_path_split {u fnm : String} (hu : u.data ≠ []) (hu2 : '/' ∉ u.data)
    (hf : '/' ∉ fnm.data) :
    (pjoin "uploads" u).data = "uploads".data ++ '/' :: u.data ∧
    (pjoin (pjoin "uploads" u) fnm).data =
      ("uploads".data ++ '/' :: u.data) ++ '/' :: fnm.data := by
  have h1 : pjoinL "uploads".data u.data = "uploads".data ++ '/' :: u.data :=
    pjoinL_eq (by decide) (by decide) hu2
  have h2 : (pjoin "uploads" u).data = "uploads".data ++ '/' :: u.data := h1
  refine ⟨h2, ?_⟩
  have hA1 : ("uploads".data ++ '/' :: u.data) ≠ [] := by simp
  have hA2 : ("uploads".data ++ '/' :: u.data).getLast? ≠ some '/' := by
    rw [List.getLast?_append_cons, show ('/' :: u.data) = ['/'] ++ u.data from rfl,
      List.getLast?_append_of_ne_nil _ hu, List.getLast?_eq_getLast_of_ne_nil hu]
    intro hc
    have hmem' := List.getLast_mem hu
    rw [Option.some.inj hc] at hmem'
    exact hu2 hmem'
  have h3 : pjoinL ("uploads".data ++ '/' :: u.data) fnm.data =
      ("uploads".data ++ '/' :: u.data) ++ '/' :: fnm.data :=
    pjoinL_eq hA1 hA2 hf
  show pjoinL (pjoin "uploads" u).data fnm.data = _
  rw [h2, h3]

/-- C8 (amended): when the algorithm name contains no path separator (and
the username is nonempty and separator-free), completing with file bytes
stores them verbatim in the user's upload directory under the filename
`<name with spaces as underscores>.py`, records exactly that basename (no
directory component) in the entry, and reading the stored path back — the
path the display code rebuilds from the recorded basename — returns exactly
the original bytes. -/
theorem complete_upload_spec (k : Nat) (cat : Catalog) (tL tN tS : ℚ)
    (d : ProgressDoc) (up : UploadState) (u algo : String) (e : ProgressEntry)
    (bytes : List Nat)
    (hu : u.data ≠ []) (hu2 : '/' ∉ u.data) (ha : '/' ∉ algo.data)
    (h : alookup algo (mergeCatalog cat d.algorithms) = some e) :
    complete_algorithm (k + 1) cat tL tN tS (FileContent.doc d) up u algo (some bytes) =
      CompleteOutcome.done true
        (FileContent.doc
          { algorithms := dictInsert algo
              { completeUpd e tN with implementation_file := some (uploadFileName algo) }
              (mergeCatalog cat d.algorithms),
            last_updated := tS })
        ⟨insertDir (pjoin "uploads" u) up.dirs,
         dictInsert (pjoin (pjoin "uploads" u) (uploadFileName algo)) bytes up.files⟩ ∧
    basename (pjoin (pjoin "uploads" u) (uploadFileName algo)) = uploadFileName algo ∧
    uploadFileName algo = replaceSpaces algo ++ ".py" ∧
    alookup (pjoin (pjoin "uploads" u) (uploadFileName algo))
        (dictInsert (pjoin (pjoin "uploads" u) (uploadFileName algo)) bytes up.files) =
      some bytes := by
  obtain ⟨hfns, hfne⟩ := uploadFileName_no_slash ha
  obtain ⟨hsp1, hsp2⟩ := upload_path_split hu hu2 hfns
  have hbase : basename (pjoin (pjoin "uploads" u) (uploadFileName algo)) =
      uploadFileName algo := by
    show String.mk (basenameL (pjoin (pjoin "uploads" u) (uploadFileName algo)).data) = _
    rw [hsp2, basenameL_append hfns]
  have hdirn : dirname (pjoin (pjoin "uploads" u) (uploadFileName algo)) =
      pjoin "uploads" u := by
    show String.mk (dirnameL (pjoin (pjoin "uploads" u) (uploadFileName algo)).data) = _
    rw [hsp2, dirnameL_append hfns, ← hsp1]
  have hmem : dirname (pjoin (pjoin "uploads" u) (uploadFileName algo)) ∈
      insertDir (pjoin "uploads" u) up.dirs := by
    rw [hdirn]
    unfold insertDir
    by_cases hin : pjoin "uploads" u ∈ up.dirs
    · rw [if_pos hin]
      exact hin
    · rw [if_neg hin]
      exact List.mem_append_right _ (List.mem_singleton.mpr rfl)
  refine ⟨?_, hbase, rfl, alookup_dictInsert_self _ _ _⟩
  simp only [complete_algorithm, load_user_progress, loadedDoc, h, save_user_progress,
    if_pos hmem, hbase]

/-- Witness for the amended C8 at concrete inputs. -/
theorem complete_upload_spec_witness :
    complete_algorithm 1 DEFAULT_ALGORITHMS 0 5 6
        (FileContent.doc (freshDoc DEFAULT_ALGORITHMS 0)) ⟨["uploads"], []⟩
        "alice" "Linear Regression" (some [104, 105]) =
      CompleteOutcome.done true
        (FileContent.doc
          { algorithms := dictInsert "Linear Regression"
              { completeUpd (defaultEntry linearRegressionInfo) 5 with
                  implementation_file := some (uploadFileName "Linear Regression") }
              (mergeCatalog DEFAULT_ALGORITHMS (freshDoc DEFAULT_ALGORITHMS 0).algorithms),
            last_updated := 6 })
        ⟨insertDir (pjoin "uploads" "alice") ["uploads"],
         dictInsert (pjoin (pjoin "uploads" "alice") (uploadFileName "Linear Regression"))
           [104, 105] []⟩ ∧
    basename (pjoin (pjoin "uploads" "alice") (uploadFileName "Linear Regression")) =
      uploadFileName "Linear Regression" :=
  have h := complete_upload_spec 0 DEFAULT_ALGORITHMS 0 5 6 (freshDoc DEFAULT_ALGORITHMS 0)
    ⟨["uploads"], []⟩ "alice" "Linear Regression" (defaultEntry linearRegressionInfo)
    [104, 105] (by decide) (by decide) (by decide) (by decide)
  ⟨h.1, h.2.1⟩

/-- A catalog whose single algorithm name contains a path separator. -/
def slashCatalog : Catalog := [("a/b", linearRegressionInfo)]

/-- Counterexample to C8 as stated: for the algorithm name `a/b` the code
joins `uploads/alice` with `a/b.py`, so the write targets the nested path
`uploads/alice/a/b.py` whose parent directory `uploads/alice/a` was never
created — the open raises and no bytes are stored, no reference recorded,
instead of the claimed verbatim write under the sanitized filename. -/
theorem upload_with_separator_raises :
    complete_algorithm 1 slashCatalog 0 5 6 FileContent.absent ⟨["uploads"], []⟩
        "alice" "a/b" (some [104]) =
      CompleteOutcome.raised (FileContent.doc (freshDoc slashCatalog 0))
        ⟨["uploads", "uploads/alice"], []⟩ := by
  decide

end MLTracker
